import Mathlib

/-!
Verification of the document-downloader core: a shallow embedding of the
rate-limit-aware API client (`api_request`), the per-file download step
(`download_file`) and the recursive folder walker (`process_folder`) of
`procore_document_downloader.py`, together with theorems about the
claimed properties of that code.

Modelling conventions:
* HTTP traffic is an oracle: a list of successive responses the server
  returns for the repeated identical request (the client re-issues the
  same request after each 429, so one list per request suffices).
* `time.sleep(d)` is modelled by recording `d` in a `waits` list.
* Python `int(s)` is modelled by `pythonInt` (ASCII decimal strings,
  optional sign, surrounding whitespace, underscores between digits);
  a `ValueError` is the `none` result.
* The remote folder tree is a well-founded tree `FolderNode`; each node
  carries the sequence of rate-limit responses served before its final
  answer (`pre`), and the final answer (an error, or a listing).
* Filesystem effects (directory creation, file writes) are recorded in
  lists inside `WalkState`; the mutable global `download_stats` is the
  counter triple of that state.
-/

/-- Characters treated as whitespace by Python `int()` / `str.strip()`. -/
def isPySpace (c : Char) : Bool :=
  c = ' ' || c = '\t' || c = '\n' || c = '\r' || c = '\x0b' || c = '\x0c'

/-- Value of an ASCII digit character. -/
def digitVal (c : Char) : Nat := c.toNat - 48

/-- Parse the tail of a Python decimal literal: digits with single
underscores allowed between digits (`acc` is the value read so far). -/
def digitsCore (acc : Nat) : List Char → Option Nat
  | [] => some acc
  | c :: rest =>
    if c.isDigit then digitsCore (10 * acc + digitVal c) rest
    else if c = '_' then
      match rest with
      | d :: rest2 =>
        if d.isDigit then digitsCore (10 * acc + digitVal d) rest2 else none
      | [] => none
    else none

/-- Parse a nonempty run of ASCII decimal digits (Python digit grammar:
`digit (digit | "_" digit)*`). -/
def pyDigits : List Char → Option Nat
  | [] => none
  | c :: rest => if c.isDigit then digitsCore (digitVal c) rest else none

/-- Model of Python `int(s)` on a string: strip whitespace, optional
sign, then a decimal digit run.  `none` models a raised `ValueError`. -/
def pythonInt (s : String) : Option Int :=
  let cs := (((s.data.dropWhile isPySpace).reverse.dropWhile isPySpace).reverse)
  match cs with
  | '+' :: rest => (pyDigits rest).map Int.ofNat
  | '-' :: rest => (pyDigits rest).map (fun n => -(n : Int))
  | rest => (pyDigits rest).map Int.ofNat

/-- `int(response.headers.get('Retry-After', 60))`: 60 when the header
is absent, Python `int` of the header value otherwise (`none` models the
uncaught `ValueError` on a malformed value). -/
def retryAfterValue : Option String → Option Int
  | none => some 60
  | some s => pythonInt s

/-- One server response to a request, as seen by `api_request`:
a 2xx body, a 429 with an optional `Retry-After` header, or any other
error that makes `raise_for_status` / `requests.get` raise a
`RequestException`. -/
inductive ApiResponse (α : Type) where
  | ok (body : α)
  | rateLimited (retryAfter : Option String)
  | httpError
deriving Repr, DecidableEq

/-- Final outcome of `api_request` on a response oracle.  `success` is a
returned JSON body, `failure` the caught-`RequestException` path that
returns `None`, `crash` an exception the handler does not catch
(`ValueError` from `int()` or from `time.sleep` of a negative duration),
and `stillWaiting` means the oracle was exhausted while the server kept
answering 429 (the code would retry forever).  Every outcome carries the
sleep durations performed so far, in order. -/
inductive ApiOutcome (α : Type) where
  | success (body : α) (waits : List Int)
  | failure (waits : List Int)
  | crash (waits : List Int)
  | stillWaiting (waits : List Int)
deriving Repr, DecidableEq

/-- `api_request` of the source, run against a response oracle: on a 429
it reads `Retry-After` (default 60), sleeps that long and re-issues the
identical request (= consumes the next oracle entry); on success it
returns the body; on any other `RequestException` it returns `None`
(`failure`); a malformed header or negative sleep raises out
(`crash`). -/
def api_request {α : Type} : List (ApiResponse α) → List Int → ApiOutcome α
  | [], waits => .stillWaiting waits
  | .ok body :: _, waits => .success body waits
  | .httpError :: _, waits => .failure waits
  | .rateLimited h :: rest, waits =>
    match retryAfterValue h with
    | none => .crash waits
    | some d => if d < 0 then .crash waits else api_request rest (waits ++ [d])

example : pythonInt "60" = some 60 := by decide
example : pythonInt " +6_0 " = some 60 := by decide
example : pythonInt "abc" = none := by decide
example : pythonInt "" = none := by decide
example : api_request [ApiResponse.rateLimited (some "5"), ApiResponse.ok 7] []
    = ApiOutcome.success 7 [5] := by decide

/-- A file version record (`file['file_versions'][i]`): `number` is
`v.get('number', 0)` so the key may be absent, `url` is the optional
`url` key checked by `'url' in latest_version and latest_version['url']`. -/
structure FileVersion where
  number : Option Int
  url : Option String
deriving Repr, DecidableEq

/-- `v.get('number', 0)`: the sort key of a version. -/
def vnum (v : FileVersion) : Int := v.number.getD 0

/-- A file entry of a folder listing (`data['files'][i]`). -/
structure FileEntry where
  name : String
  is_deleted : Bool
  file_versions : List FileVersion
deriving Repr, DecidableEq

/-- Python `max(iterable, key=...)` on a nonempty list: `best` is the
current maximum; a later element replaces it only when its key is
strictly greater, so the first element attaining the maximal key wins. -/
def pyMaxBy (key : FileVersion → Int) : FileVersion → List FileVersion → FileVersion
  | best, [] => best
  | best, v :: rest =>
    if key v > key best then pyMaxBy key v rest else pyMaxBy key best rest

/-- `max(file['file_versions'], key=lambda v: v.get('number', 0))`,
guarded by the nonemptiness check of the source. -/
def latestVersion : List FileVersion → Option FileVersion
  | [] => none
  | v :: vs => some (pyMaxBy vnum v vs)

/-- First char is the path separator (`b[:1] == '/'` in posixpath). -/
def startsSep (s : String) : Bool := s.data.head? = some '/'

/-- Last char is the path separator (`a[-1:] == '/'` in posixpath). -/
def endsSep (s : String) : Bool := s.data.getLast? = some '/'

/-- `posixpath.join(a, b)` (the `os.path.join` of the source on a POSIX
system): an absolute `b` replaces the path, otherwise `b` is appended
with a separator unless one is already present or `a` is empty. -/
def osJoin (a b : String) : String :=
  if startsSep b then b
  else if a = "" || endsSep a then a ++ b
  else a ++ "/" ++ b

/-- The remote folder tree as the walker can observe it.  A node carries
the metadata its parent's listing showed for it (`is_deleted`,
`is_recycle_bin`, `name`, `id`; unused on the root), the `Retry-After`
headers of the 429 responses served before the final answer (`pre`),
whether the final answer is a transport/HTTP error (`isErr`), and on
success the listing: `files` and the child subfolder nodes (`subs`). -/
inductive FolderNode : Type where
  | mk (is_deleted : Bool) (is_recycle_bin : Bool) (name : String) (id : Nat)
      (pre : List (Option String)) (isErr : Bool)
      (files : List FileEntry) (subs : List FolderNode)

namespace FolderNode

def is_deleted : FolderNode → Bool
  | .mk d _ _ _ _ _ _ _ => d

def is_recycle_bin : FolderNode → Bool
  | .mk _ r _ _ _ _ _ _ => r

def name : FolderNode → String
  | .mk _ _ nm _ _ _ _ _ => nm

def pre : FolderNode → List (Option String)
  | .mk _ _ _ _ p _ _ _ => p

def isErr : FolderNode → Bool
  | .mk _ _ _ _ _ e _ _ => e

def files : FolderNode → List FileEntry
  | .mk _ _ _ _ _ _ fs _ => fs

def subs : FolderNode → List FolderNode
  | .mk _ _ _ _ _ _ _ ss => ss

end FolderNode

/-- Run state of one project download: the `download_stats` counters,
plus histories of what touched the network and the filesystem —
`attempts` records every `download_file(url, local_path)` call,
`downloads` the local paths of the successful ones, `dirs` every
directory created for a subfolder, `waits` every `time.sleep`. -/
structure WalkState where
  files_downloaded : Nat
  folders_created : Nat
  errors : Nat
  attempts : List (String × String)
  downloads : List String
  dirs : List String
  waits : List Int
deriving Repr, DecidableEq

/-- The all-zero state at the start of `download_project_documents`. -/
def initState : WalkState := ⟨0, 0, 0, [], [], [], []⟩

/-- Result of a recursive `process_folder` call: normal return, or an
exception (the uncaught `ValueError` of the 429 handler) unwinding
through it; both carry the global state at that moment. -/
inductive WalkResult where
  | ok (st : WalkState)
  | crashed (st : WalkState)
deriving Repr, DecidableEq

/-- The state carried by a `WalkResult`. -/
def WalkResult.state : WalkResult → WalkState
  | .ok st => st
  | .crashed st => st

/-- Outcome of the 429 retry loop at the top of `process_folder`: all
rate-limit responses absorbed (with the sleeps performed), or a raised
`ValueError` (malformed `Retry-After`, or negative sleep duration). -/
inductive FetchStep where
  | done (waits : List Int)
  | crashed (waits : List Int)
deriving Repr, DecidableEq

/-- The walker's own 429 loop (lines 351–357 of the source): for each
rate-limit response read `Retry-After` (default 60), sleep, and retry
the identical folder fetch. -/
def fetchLoop : List (Option String) → List Int → FetchStep
  | [], waits => .done waits
  | h :: rest, waits =>
    match retryAfterValue h with
    | none => .crashed waits
    | some d => if d < 0 then .crashed waits else fetchLoop rest (waits ++ [d])

/-- Handling of one file entry of a listing (lines 370–407): skip
deleted files, skip an empty version list, pick the latest version, skip
a missing or empty `url`, otherwise call `download_file` (which never
raises: it catches every exception and reports `False`) and update the
counters. `dl url path` is the oracle for `download_file`'s success. -/
def processFile (dl : String → String → Bool) (base fp : String)
    (st : WalkState) (f : FileEntry) : WalkState :=
  if f.is_deleted then st
  else
    match latestVersion f.file_versions with
    | none => st
    | some lv =>
      match lv.url with
      | none => st
      | some u =>
        if u = "" then st
        else
          let path := osJoin (osJoin base fp) f.name
          let st := { st with attempts := st.attempts ++ [(u, path)] }
          if dl u path then
            { st with downloads := st.downloads ++ [path],
                      files_downloaded := st.files_downloaded + 1 }
          else
            { st with errors := st.errors + 1 }

/-- The `for file in data['files']` loop. -/
def processFiles (dl : String → String → Bool) (base fp : String) :
    List FileEntry → WalkState → WalkState
  | [], st => st
  | f :: rest, st => processFiles dl base fp rest (processFile dl base fp st f)

mutual

/-- `process_folder(folder_id, company_id, project_id, base_path,
folder_path)` of the source, run on the node describing that folder: the
429 retry loop (which re-invokes `process_folder` with identical
arguments, i.e. restarts this folder from scratch), the `except
RequestException` path that logs and returns, then the file loop and the
subfolder loop. -/
def walkFolder (dl : String → String → Bool) (base fp : String)
    (n : FolderNode) (st : WalkState) : WalkResult :=
  match n with
  | .mk _ _ _ _ pre isErr fileList subList =>
    match fetchLoop pre [] with
    | .crashed ws => .crashed { st with waits := st.waits ++ ws }
    | .done ws =>
      if isErr then .ok { st with waits := st.waits ++ ws }
      else walkSubs dl base fp subList
        (processFiles dl base fp fileList { st with waits := st.waits ++ ws })

/-- The `for subfolder in data['folders']` loop: skip deleted and
recycle-bin subfolders; otherwise build the child relative path, create
the local directory (counted), then recurse; an exception unwinding from
the recursion aborts the loop. -/
def walkSubs (dl : String → String → Bool) (base fp : String) :
    List FolderNode → WalkState → WalkResult
  | [], st => .ok st
  | c :: rest, st =>
    if c.is_deleted || c.is_recycle_bin then walkSubs dl base fp rest st
    else
      match walkFolder dl base (if fp ≠ "" then osJoin fp c.name else c.name) c
          { st with
              dirs := st.dirs ++ [osJoin base (if fp ≠ "" then osJoin fp c.name else c.name)],
              folders_created := st.folders_created + 1 } with
      | .crashed s => .crashed s
      | .ok s => walkSubs dl base fp rest s

end

/-- C1: for every request (the generic client `api_request` and the
folder fetch loop of the walker alike), each 429 response causes exactly
one sleep of the `Retry-After` duration (60 when the header is absent)
followed by exactly one retry of the identical request; this repeats,
unbounded, until a non-429 response arrives, whose outcome is then
delivered with exactly those waits performed. `hv` pairs each 429 header
with its duration: `retryAfterValue h = some n` (so `n = 60` for an
absent header) with `n` non-negative. -/
theorem C1_rate_limit_wait_retry {α : Type} (hs : List (Option String)) (ns : List Int)
    (hv : List.Forall₂ (fun h n => retryAfterValue h = some n ∧ 0 ≤ n) hs ns)
    (ws : List Int) :
    (∀ (b : α) (rest : List (ApiResponse α)),
        api_request (hs.map ApiResponse.rateLimited ++ ApiResponse.ok b :: rest) ws
          = ApiOutcome.success b (ws ++ ns)) ∧
    (∀ rest : List (ApiResponse α),
        api_request (hs.map ApiResponse.rateLimited ++ ApiResponse.httpError :: rest) ws
          = ApiOutcome.failure (ws ++ ns)) ∧
    api_request (hs.map ApiResponse.rateLimited : List (ApiResponse α)) ws
      = ApiOutcome.stillWaiting (ws ++ ns) ∧
    fetchLoop hs ws = FetchStep.done (ws ++ ns) := by
  induction hv generalizing ws with
  | nil => simp [api_request, fetchLoop]
  | @cons h n hs' ns' hpair _ ih =>
    obtain ⟨hval, hnn⟩ := hpair
    have hlt : ¬ n < 0 := not_lt.mpr hnn
    have ih' := ih (ws ++ [n])
    refine ⟨fun b rest => ?_, fun rest => ?_, ?_, ?_⟩ <;>
      simp only [List.map_cons, List.cons_append, api_request, fetchLoop, hval,
        hlt, if_false] <;>
      simp [ih'.1, ih'.2.1, ih'.2.2.1, ih'.2.2.2, List.append_assoc]

/-- Closed instance of `C1_rate_limit_wait_retry`: two 429s (one with
`Retry-After: 5`, one without the header) then a success. -/
theorem C1_rate_limit_wait_retry_witness :
    api_request [ApiResponse.rateLimited (some "5"), ApiResponse.rateLimited none,
        ApiResponse.ok (7 : Nat)] [] = ApiOutcome.success 7 [5, 60] ∧
    fetchLoop [some "5", none] [] = FetchStep.done [5, 60] := by
  have h := C1_rate_limit_wait_retry (α := Nat) [some "5", none] [5, 60]
    (by refine .cons ⟨by decide, by decide⟩ (.cons ⟨by decide, by decide⟩ .nil)) []
  exact ⟨by simpa using h.1 7 [], by simpa using h.2.2.2⟩

/-- Python `max` yields an upper bound of the key over the whole list. -/
theorem pyMaxBy_key_le (key : FileVersion → Int) (v : FileVersion)
    (vs : List FileVersion) :
    ∀ w ∈ v :: vs, key w ≤ key (pyMaxBy key v vs) := by
  induction vs generalizing v with
  | nil => simp [pyMaxBy]
  | cons u rest ih =>
    intro w hw
    rw [List.mem_cons] at hw
    by_cases h : key u > key v
    · have hrec : pyMaxBy key v (u :: rest) = pyMaxBy key u rest := by
        simp [pyMaxBy, h]
      rw [hrec]
      rcases hw with hw | hw
      · subst hw
        exact le_of_lt (lt_of_lt_of_le h (ih u u (by simp)))
      · exact ih u w hw
    · have hrec : pyMaxBy key v (u :: rest) = pyMaxBy key v rest := by
        simp [pyMaxBy, h]
      rw [hrec]
      rcases hw with hw | hw
      · subst hw; exact ih w w (by simp)
      · rw [List.mem_cons] at hw
        rcases hw with hw | hw
        · subst hw
          exact le_trans (not_lt.mp h) (ih v v (by simp))
        · exact ih v w (by simp [hw])

/-- Python `max` returns exactly the first element attaining the
maximal key: the list splits around the result, every earlier element
has a strictly smaller key and every later one a key no greater. -/
theorem pyMaxBy_decomp (key : FileVersion → Int) (v : FileVersion)
    (vs : List FileVersion) :
    ∃ l₁ l₂, v :: vs = l₁ ++ pyMaxBy key v vs :: l₂ ∧
      (∀ w ∈ l₁, key w < key (pyMaxBy key v vs)) ∧
      (∀ w ∈ l₂, key w ≤ key (pyMaxBy key v vs)) := by
  induction vs generalizing v with
  | nil => exact ⟨[], [], by simp [pyMaxBy], by simp, by simp⟩
  | cons u rest ih =>
    by_cases h : key u > key v
    · have hrec : pyMaxBy key v (u :: rest) = pyMaxBy key u rest := by
        simp [pyMaxBy, h]
      obtain ⟨l₁, l₂, heq, h₁, h₂⟩ := ih u
      have humax : key u ≤ key (pyMaxBy key u rest) :=
        pyMaxBy_key_le key u rest u (by simp)
      rw [hrec]
      refine ⟨v :: l₁, l₂, ?_, ?_, h₂⟩
      · rw [List.cons_append, ← heq]
      · intro w hw
        rw [List.mem_cons] at hw
        rcases hw with hw | hw
        · subst hw; exact lt_of_lt_of_le h humax
        · exact h₁ w hw
    · have hrec : pyMaxBy key v (u :: rest) = pyMaxBy key v rest := by
        simp [pyMaxBy, h]
      obtain ⟨l₁, l₂, heq, h₁, h₂⟩ := ih v
      rw [hrec]
      match l₁, heq, h₁ with
      | [], heq, h₁ =>
        rw [List.nil_append] at heq
        have hm : pyMaxBy key v rest = v := (List.cons.injEq .. ▸ heq).1.symm
        have hrest : l₂ = rest := (List.cons.injEq .. ▸ heq).2.symm
        refine ⟨[], u :: rest, by simp [hm], by simp, ?_⟩
        intro w hw
        rw [List.mem_cons] at hw
        rcases hw with hw | hw
        · subst hw; rw [hm]; exact not_lt.mp h
        · exact h₂ w (hrest ▸ hw)
      | x :: l₁', heq, h₁ =>
        rw [List.cons_append] at heq
        have hx : x = v := ((List.cons.injEq ..) ▸ heq).1.symm
        have htail : rest = l₁' ++ pyMaxBy key v rest :: l₂ :=
          ((List.cons.injEq ..) ▸ heq).2
        have hvlt : key v < key (pyMaxBy key v rest) := hx ▸ h₁ x (by simp)
        refine ⟨v :: u :: l₁', l₂, ?_, ?_, h₂⟩
        · rw [List.cons_append, List.cons_append, ← htail]
        · intro w hw
          rw [List.mem_cons] at hw
          rcases hw with hw | hw
          · subst hw; exact hvlt
          · rw [List.mem_cons] at hw
            rcases hw with hw | hw
            · subst hw; exact lt_of_le_of_lt (not_lt.mp h) hvlt
            · exact h₁ w (by simp [hw])

/-- C2: for a file entry with a nonempty version list, the selected
version (`latestVersion`, i.e. `max(file_versions, key=number)` used by
`processFile`) is a member of the list whose version number is greatest,
and ties resolve deterministically to exactly one candidate: the
earliest-listed version attaining the maximum (every earlier version has
a strictly smaller number, every later one a number no greater).
Version records of the source carry no deletion flag, so all versions of
a file entry are its non-deleted versions. -/
theorem C2_latest_version_is_first_max (v : FileVersion) (vs : List FileVersion) :
    ∃ lv l₁ l₂, latestVersion (v :: vs) = some lv ∧
      v :: vs = l₁ ++ lv :: l₂ ∧
      (∀ w ∈ v :: vs, vnum w ≤ vnum lv) ∧
      (∀ w ∈ l₁, vnum w < vnum lv) ∧
      (∀ w ∈ l₂, vnum w ≤ vnum lv) := by
  obtain ⟨l₁, l₂, heq, h₁, h₂⟩ := pyMaxBy_decomp vnum v vs
  exact ⟨pyMaxBy vnum v vs, l₁, l₂, rfl, heq, pyMaxBy_key_le vnum v vs, h₁, h₂⟩

/-- Closed instance of `C2_latest_version_is_first_max` on a two-way tie
at number 2. -/
theorem C2_latest_version_is_first_max_witness :
    ∃ lv l₁ l₂, latestVersion [(⟨some 1, some "a"⟩ : FileVersion),
        ⟨some 2, some "b"⟩, ⟨some 2, some "c"⟩] = some lv ∧
      [(⟨some 1, some "a"⟩ : FileVersion), ⟨some 2, some "b"⟩, ⟨some 2, some "c"⟩]
        = l₁ ++ lv :: l₂ ∧
      (∀ w ∈ [(⟨some 1, some "a"⟩ : FileVersion), ⟨some 2, some "b"⟩,
          ⟨some 2, some "c"⟩], vnum w ≤ vnum lv) ∧
      (∀ w ∈ l₁, vnum w < vnum lv) ∧
      (∀ w ∈ l₂, vnum w ≤ vnum lv) :=
  C2_latest_version_is_first_max ⟨some 1, some "a"⟩
    [⟨some 2, some "b"⟩, ⟨some 2, some "c"⟩]

/-- C9: a 429 whose `Retry-After` value is not parseable as a Python
integer makes `int()` raise a `ValueError`, which the surrounding
`except requests.exceptions.RequestException` handler does not catch: no
60-second default wait and no retry happen; `api_request` aborts with
the unhandled error, and inside the walker the same error unwinds out of
the current `process_folder` call and out of every enclosing recursive
call (the remaining siblings of the enclosing folder are never
processed). -/
theorem C9_malformed_retry_after_crashes (s : String) (hbad : pythonInt s = none) :
    (∀ (α : Type) (rest : List (ApiResponse α)) (ws : List Int),
        api_request (ApiResponse.rateLimited (some s) :: rest) ws
          = ApiOutcome.crash ws) ∧
    (∀ dl base fp d r nm i pre isErr fileList subList st,
        walkFolder dl base fp
            (FolderNode.mk d r nm i (some s :: pre) isErr fileList subList) st
          = WalkResult.crashed st) ∧
    (∀ dl base fp nm i pre isErr fileList subList rest st,
        walkSubs dl base fp
            (FolderNode.mk false false nm i (some s :: pre) isErr fileList subList
              :: rest) st
          = WalkResult.crashed
              { st with
                  dirs := st.dirs ++ [osJoin base (if fp ≠ "" then osJoin fp nm else nm)],
                  folders_created := st.folders_created + 1 }) := by
  refine ⟨fun α rest ws => ?_, fun dl base fp d r nm i pre isErr fileList subList st => ?_,
    fun dl base fp nm i pre isErr fileList subList rest st => ?_⟩
  · simp [api_request, retryAfterValue, hbad]
  · simp [walkFolder, fetchLoop, retryAfterValue, hbad]
  · simp [walkSubs, walkFolder, fetchLoop, retryAfterValue, hbad,
      FolderNode.is_deleted, FolderNode.is_recycle_bin, FolderNode.name]

/-- Closed instance of `C9_malformed_retry_after_crashes` at the header
value `"abc"`: the client crashes instead of waiting, and the crash
unwinds through a parent folder carrying the state at the moment of the
error. -/
theorem C9_malformed_retry_after_crashes_witness :
    api_request [ApiResponse.rateLimited (some "abc"), ApiResponse.ok (3 : Nat)] []
      = ApiOutcome.crash [] ∧
    walkSubs (fun _ _ => true) "base" ""
        [FolderNode.mk false false "sub" 1 [some "abc"] false [] []] initState
      = WalkResult.crashed
          { initState with dirs := ["base/sub"], folders_created := 1 } := by
  have h := C9_malformed_retry_after_crashes "abc" (by decide)
  refine ⟨h.1 Nat [ApiResponse.ok 3] [], ?_⟩
  have h3 := h.2.2 (fun _ _ => true) "base" "" "sub" 1 [] false [] [] [] initState
  simpa [initState, osJoin, startsSep, endsSep] using h3

/-- The 429 loop only ever appends to the accumulated wait list. -/
theorem fetchLoop_acc (hs : List (Option String)) (ws : List Int) :
    fetchLoop hs ws = match fetchLoop hs [] with
      | .done w => .done (ws ++ w)
      | .crashed w => .crashed (ws ++ w) := by
  induction hs generalizing ws with
  | nil => simp [fetchLoop]
  | cons h rest ih =>
    match hval : retryAfterValue h with
    | none => simp [fetchLoop, hval]
    | some n =>
      by_cases hneg : n < 0
      · simp [fetchLoop, hval, hneg]
      · rw [fetchLoop, fetchLoop]
        simp only [hval, hneg, if_false]
        rw [ih (ws ++ [n]), ih ([] ++ [n])]
        rcases hfl : fetchLoop rest [] with w | w <;> simp

/-- C4: a folder whose listing fetch fails with a non-429 error is
abandoned: `process_folder` returns normally with no file of that folder
or of any descendant downloaded (only the sleeps of any preceding 429s
are recorded), and the subfolder loop of the caller goes on with the
remaining sibling folders, so the run does not abort. -/
theorem C4_fetch_error_abandons_subtree (dl : String → String → Bool)
    (base fp : String) (d r : Bool) (nm : String) (i : Nat)
    (pre : List (Option String)) (fileList : List FileEntry)
    (subList : List FolderNode) (st : WalkState) (ws : List Int)
    (hfetch : fetchLoop pre [] = FetchStep.done ws) :
    walkFolder dl base fp (FolderNode.mk d r nm i pre true fileList subList) st
      = WalkResult.ok { st with waits := st.waits ++ ws } ∧
    (∀ rest : List FolderNode,
      walkSubs dl base fp
          (FolderNode.mk false false nm i pre true fileList subList :: rest) st
        = walkSubs dl base fp rest
            { st with
                dirs := st.dirs ++ [osJoin base (if fp ≠ "" then osJoin fp nm else nm)],
                folders_created := st.folders_created + 1,
                waits := st.waits ++ ws }) := by
  constructor
  · simp [walkFolder, hfetch]
  · intro rest
    simp [walkSubs, walkFolder, hfetch, FolderNode.is_deleted,
      FolderNode.is_recycle_bin, FolderNode.name]

/-- Closed instance of `C4_fetch_error_abandons_subtree`: a child whose
fetch fails contributes no download, yet the subfolder loop continues
(here with an empty remainder) carrying the directory already created
for the failed child. -/
theorem C4_fetch_error_abandons_subtree_witness :
    walkFolder (fun _ _ => true) "base" ""
        (FolderNode.mk false false "sub" 1 [] true
          [⟨"a.txt", false, [⟨some 1, some "u1"⟩]⟩] []) initState
      = WalkResult.ok initState ∧
    walkSubs (fun _ _ => true) "base" ""
        [FolderNode.mk false false "sub" 1 [] true
          [⟨"a.txt", false, [⟨some 1, some "u1"⟩]⟩] []] initState
      = walkSubs (fun _ _ => true) "base" "" []
          { initState with dirs := ["base/sub"], folders_created := 1 } := by
  have h := C4_fetch_error_abandons_subtree (fun _ _ => true) "base" "" false false
    "sub" 1 [] [⟨"a.txt", false, [⟨some 1, some "u1"⟩]⟩] [] initState [] rfl
  constructor
  · simpa [initState] using h.1
  · simpa [initState, osJoin, startsSep, endsSep] using h.2 []

/-- C7: a non-deleted file entry with an empty version list, or whose
selected latest version has no `url` (or an empty one), is skipped
without any state change — in particular the error counter stays
untouched — and the file loop simply moves on to the remaining
entries. -/
theorem C7_versionless_file_skipped (dl : String → String → Bool)
    (base fp : String) (st : WalkState) (f : FileEntry)
    (hdel : f.is_deleted = false)
    (hbad : f.file_versions = [] ∨
      ∃ lv, latestVersion f.file_versions = some lv ∧
        (lv.url = none ∨ lv.url = some "")) :
    processFile dl base fp st f = st ∧
    (∀ rest : List FileEntry,
      processFiles dl base fp (f :: rest) st = processFiles dl base fp rest st) := by
  have hskip : processFile dl base fp st f = st := by
    rcases hbad with hempty | ⟨lv, hlv, hurl⟩
    · simp [processFile, hdel, hempty, latestVersion]
    · rcases hurl with hurl | hurl <;> simp [processFile, hdel, hlv, hurl]
  exact ⟨hskip, fun rest => by simp [processFiles, hskip]⟩

/-- Closed instance of `C7_versionless_file_skipped`: a file with no
versions, and a file whose latest version lacks a URL, both leave the
state unchanged. -/
theorem C7_versionless_file_skipped_witness :
    processFile (fun _ _ => true) "base" "" initState ⟨"a.txt", false, []⟩
      = initState ∧
    (∀ rest : List FileEntry,
      processFiles (fun _ _ => true) "base" "" (⟨"a.txt", false, []⟩ :: rest)
          initState
        = processFiles (fun _ _ => true) "base" "" rest initState) :=
  C7_versionless_file_skipped (fun _ _ => true) "base" "" initState
    ⟨"a.txt", false, []⟩ rfl (Or.inl rfl)

/-- C8: a file whose `download_file` call fails is the only casualty:
the attempt is made, the error counter is incremented, no download is
recorded, the file counter stays put, and processing continues with the
remaining files of the folder and then with its subfolders — a per-file
failure never aborts the folder, and `process_folder` still returns
normally as far as this file is concerned. -/
theorem C8_download_failure_counted_and_continues (dl : String → String → Bool)
    (base fp : String) (st : WalkState) (f : FileEntry) (lv : FileVersion)
    (u : String)
    (hdel : f.is_deleted = false)
    (hlv : latestVersion f.file_versions = some lv)
    (hurl : lv.url = some u) (hne : u ≠ "")
    (hfail : dl u (osJoin (osJoin base fp) f.name) = false) :
    processFile dl base fp st f
      = { st with
            attempts := st.attempts ++ [(u, osJoin (osJoin base fp) f.name)],
            errors := st.errors + 1 } ∧
    (∀ rest : List FileEntry,
      processFiles dl base fp (f :: rest) st
        = processFiles dl base fp rest
            { st with
                attempts := st.attempts ++ [(u, osJoin (osJoin base fp) f.name)],
                errors := st.errors + 1 }) ∧
    (∀ (d r : Bool) (nm : String) (i : Nat) (rest : List FileEntry)
        (subList : List FolderNode),
      walkFolder dl base fp (FolderNode.mk d r nm i [] false (f :: rest) subList) st
        = walkSubs dl base fp subList
            (processFiles dl base fp rest
              { st with
                  attempts := st.attempts ++ [(u, osJoin (osJoin base fp) f.name)],
                  errors := st.errors + 1 })) := by
  have hskip : processFile dl base fp st f
      = { st with
            attempts := st.attempts ++ [(u, osJoin (osJoin base fp) f.name)],
            errors := st.errors + 1 } := by
    simp [processFile, hdel, hlv, hurl, hne, hfail]
  refine ⟨hskip, fun rest => by simp [processFiles, hskip], ?_⟩
  intro d r nm i rest subList
  simp [walkFolder, fetchLoop, processFiles, hskip]

/-- Closed instance of `C8_download_failure_counted_and_continues` with
an always-failing download oracle. -/
theorem C8_download_failure_counted_and_continues_witness :
    processFile (fun _ _ => false) "base" "" initState
        ⟨"a.txt", false, [⟨some 1, some "u1"⟩]⟩
      = { initState with attempts := [("u1", "base/a.txt")], errors := 1 } ∧
    walkFolder (fun _ _ => false) "base" ""
        (FolderNode.mk false false "" 0 [] false
          [⟨"a.txt", false, [⟨some 1, some "u1"⟩]⟩] [])
        initState
      = WalkResult.ok { initState with attempts := [("u1", "base/a.txt")], errors := 1 } := by
  have h := C8_download_failure_counted_and_continues (fun _ _ => false) "base" ""
    initState ⟨"a.txt", false, [⟨some 1, some "u1"⟩]⟩ ⟨some 1, some "u1"⟩ "u1"
    rfl rfl rfl (by decide) rfl
  constructor
  · simpa [initState, osJoin, startsSep, endsSep] using h.1
  · have h3 := h.2.2 false false "" 0 [] []
    simp only [h3]
    simp [processFiles, walkSubs, initState, osJoin, startsSep, endsSep]

/-- C10: for a non-deleted, non-recycle-bin subfolder the walker creates
the local directory and increments the folders-created counter first,
and only then fetches the subfolder's listing: the recursive call
already sees the state holding the new directory.  Consequently, when
that fetch then fails, the loop moves on with a state that still records
the (empty) directory and the incremented counter. -/
theorem C10_dir_created_before_fetch (dl : String → String → Bool)
    (base fp nm : String) (i : Nat) (pre : List (Option String)) (isErr : Bool)
    (fileList : List FileEntry) (subList rest : List FolderNode) (st : WalkState) :
    (walkSubs dl base fp
        (FolderNode.mk false false nm i pre isErr fileList subList :: rest) st
      = match walkFolder dl base (if fp ≠ "" then osJoin fp nm else nm)
            (FolderNode.mk false false nm i pre isErr fileList subList)
            { st with
                dirs := st.dirs ++ [osJoin base (if fp ≠ "" then osJoin fp nm else nm)],
                folders_created := st.folders_created + 1 } with
        | .crashed s => WalkResult.crashed s
        | .ok s => walkSubs dl base fp rest s) ∧
    (∀ ws : List Int, fetchLoop pre [] = FetchStep.done ws → isErr = true →
      walkSubs dl base fp
          (FolderNode.mk false false nm i pre isErr fileList subList :: rest) st
        = walkSubs dl base fp rest
            { st with
                dirs := st.dirs ++ [osJoin base (if fp ≠ "" then osJoin fp nm else nm)],
                folders_created := st.folders_created + 1,
                waits := st.waits ++ ws }) := by
  constructor
  · simp [walkSubs, FolderNode.is_deleted, FolderNode.is_recycle_bin, FolderNode.name]
  · intro ws hfetch hErr
    subst hErr
    simp [walkSubs, walkFolder, hfetch, FolderNode.is_deleted,
      FolderNode.is_recycle_bin, FolderNode.name]

/-- Closed instance of `C10_dir_created_before_fetch`: the failed child
`sub` leaves `base/sub` on disk, counted, with nothing downloaded. -/
theorem C10_dir_created_before_fetch_witness :
    walkSubs (fun _ _ => true) "base" ""
        [FolderNode.mk false false "sub" 1 [some "3"] true [] []] initState
      = walkSubs (fun _ _ => true) "base" "" []
          { initState with dirs := ["base/sub"], folders_created := 1, waits := [3] } := by
  have h := (C10_dir_created_before_fetch (fun _ _ => true) "base" "" "sub" 1
    [some "3"] true [] [] [] initState).2 [3] (by decide) rfl
  simpa [initState, osJoin, startsSep, endsSep] using h

/-- C6, counterexample: a folder whose fetch answers one 429 (then a
listing with one file) downloads that file exactly once — the retry does
not make files of the current visit be downloaded again, because the
fetch is the first action of a visit, before any download. -/
theorem C6_counterexample_no_redownload :
    (walkFolder (fun _ _ => true) "base" ""
        (FolderNode.mk false false "" 0 [some "5"] false
          [⟨"a.txt", false, [⟨some 1, some "u1"⟩]⟩] []) initState).state.attempts
      = [("u1", "base/a.txt")] ∧
    (walkFolder (fun _ _ => true) "base" ""
        (FolderNode.mk false false "" 0 [some "5"] false
          [⟨"a.txt", false, [⟨some 1, some "u1"⟩]⟩] []) initState).state.waits
      = [5] := by decide

/-- C6 as amended: a 429 at the folder-fetch layer makes the walker wait
and then re-process the entire current folder from scratch by an
identical recursive call; since the fetch precedes every download of a
visit, nothing has been downloaded yet in the visit that received the
429, so the restart duplicates no downloads — the run with the 429 is
exactly the run without it, plus one recorded wait. -/
theorem C6_429_restart_only_adds_wait (dl : String → String → Bool)
    (base fp : String) (d r : Bool) (nm : String) (i : Nat)
    (h : Option String) (hs : List (Option String)) (isErr : Bool)
    (fileList : List FileEntry) (subList : List FolderNode) (st : WalkState)
    (n : Int) (hval : retryAfterValue h = some n) (hnn : 0 ≤ n) :
    walkFolder dl base fp (FolderNode.mk d r nm i (h :: hs) isErr fileList subList) st
      = walkFolder dl base fp (FolderNode.mk d r nm i hs isErr fileList subList)
          { st with waits := st.waits ++ [n] } := by
  have hneg : ¬ n < 0 := not_lt.mpr hnn
  have hstep : fetchLoop (h :: hs) [] = fetchLoop hs [n] := by
    rw [fetchLoop]; simp [hval, hneg]
  rcases hfl : fetchLoop hs [] with w | w
  · have hl : fetchLoop (h :: hs) [] = FetchStep.done ([n] ++ w) := by
      rw [hstep, fetchLoop_acc hs [n], hfl]
    simp [walkFolder, hl, hfl, List.append_assoc]
  · have hl : fetchLoop (h :: hs) [] = FetchStep.crashed ([n] ++ w) := by
      rw [hstep, fetchLoop_acc hs [n], hfl]
    simp [walkFolder, hl, hfl, List.append_assoc]

/-- Closed instance of `C6_429_restart_only_adds_wait`: with a
`Retry-After: 5` 429 in front, the run equals the 429-free run started
with the extra wait recorded. -/
theorem C6_429_restart_only_adds_wait_witness :
    walkFolder (fun _ _ => true) "base" ""
        (FolderNode.mk false false "" 0 [some "5"] false
          [⟨"a.txt", false, [⟨some 1, some "u1"⟩]⟩] []) initState
      = walkFolder (fun _ _ => true) "base" ""
          (FolderNode.mk false false "" 0 [] false
            [⟨"a.txt", false, [⟨some 1, some "u1"⟩]⟩] [])
          { initState with waits := [5] } := by
  have h := C6_429_restart_only_adds_wait (fun _ _ => true) "base" "" false false
    "" 0 (some "5") [] false [⟨"a.txt", false, [⟨some 1, some "u1"⟩]⟩] []
    initState 5 (by decide) (by decide)
  simpa [initState] using h

/-- A deleted file entry is skipped with no state change at all. -/
theorem processFile_deleted (dl : String → String → Bool) (base fp : String)
    (st : WalkState) (f : FileEntry) (hdel : f.is_deleted = true) :
    processFile dl base fp st f = st := by
  simp [processFile, hdel]

/-- The file loop never looks at deleted entries: filtering them away
first changes nothing. -/
theorem processFiles_filter_deleted (dl : String → String → Bool)
    (base fp : String) (fs : List FileEntry) (st : WalkState) :
    processFiles dl base fp (fs.filter fun f => !f.is_deleted) st
      = processFiles dl base fp fs st := by
  induction fs generalizing st with
  | nil => rfl
  | cons f rest ih =>
    by_cases hdel : f.is_deleted = true
    · rw [processFiles, processFile_deleted dl base fp st f hdel]
      simp only [List.filter_cons, hdel]
      simpa using ih st
    · simp only [List.filter_cons, eq_false_of_ne_true hdel]
      rw [processFiles]
      simp only [Bool.not_false, if_true]
      rw [processFiles]
      exact ih (processFile dl base fp st f)

mutual

/-- Remove deleted files and deleted/recycle-bin subfolders (and,
recursively, the same inside every kept subfolder), leaving everything
else — including the response script — untouched. -/
def prune : FolderNode → FolderNode
  | .mk d r nm i pre isErr fileList subList =>
    .mk d r nm i pre isErr (fileList.filter fun f => !f.is_deleted)
      (pruneSubs subList)

/-- `prune` over a subfolder list: drop flagged entries, prune the rest. -/
def pruneSubs : List FolderNode → List FolderNode
  | [] => []
  | c :: rest =>
    if c.is_deleted || c.is_recycle_bin then pruneSubs rest
    else prune c :: pruneSubs rest

end

/-- `prune` keeps a node's flags and name. -/
theorem prune_meta (c : FolderNode) :
    (prune c).is_deleted = c.is_deleted ∧
    (prune c).is_recycle_bin = c.is_recycle_bin ∧
    (prune c).name = c.name := by
  match c with
  | .mk d r nm i pre isErr fileList subList =>
    rw [prune]
    exact ⟨rfl, rfl, rfl⟩

mutual

/-- Walking the pruned tree is walking the original tree: flagged
entries contribute nothing to the walk. -/
theorem walkFolder_prune (dl : String → String → Bool) (base fp : String)
    (n : FolderNode) (st : WalkState) :
    walkFolder dl base fp (prune n) st = walkFolder dl base fp n st := by
  match n with
  | .mk d r nm i pre isErr fileList subList =>
    rw [prune]
    rcases hfl : fetchLoop pre [] with w | w
    · rcases isErr with _ | _
      · simp only [walkFolder, hfl]
        rw [processFiles_filter_deleted,
          walkSubs_prune dl base fp subList
            (processFiles dl base fp fileList { st with waits := st.waits ++ w })]
      · simp [walkFolder, hfl]
    · simp [walkFolder, hfl]

/-- List version of `walkFolder_prune` for the subfolder loop. -/
theorem walkSubs_prune (dl : String → String → Bool) (base fp : String)
    (l : List FolderNode) (st : WalkState) :
    walkSubs dl base fp (pruneSubs l) st = walkSubs dl base fp l st := by
  match l with
  | [] => rfl
  | c :: rest =>
    rw [pruneSubs]
    by_cases hcr : (c.is_deleted || c.is_recycle_bin) = true
    · rw [if_pos hcr, walkSubs_prune dl base fp rest st]
      have : walkSubs dl base fp (c :: rest) st = walkSubs dl base fp rest st := by
        rw [walkSubs, if_pos hcr]
      rw [this]
    · rw [if_neg hcr, walkSubs, walkSubs,
        if_neg ((prune_meta c).1 ▸ (prune_meta c).2.1 ▸ hcr), if_neg hcr,
        (prune_meta c).2.2,
        walkFolder_prune dl base
          (if fp ≠ "" then osJoin fp c.name else c.name) c
          { st with
              dirs := st.dirs ++ [osJoin base (if fp ≠ "" then osJoin fp c.name else c.name)],
              folders_created := st.folders_created + 1 }]
      rcases walkFolder dl base (if fp ≠ "" then osJoin fp c.name else c.name) c
          { st with
              dirs := st.dirs ++ [osJoin base (if fp ≠ "" then osJoin fp c.name else c.name)],
              folders_created := st.folders_created + 1 } with s | s
      · exact walkSubs_prune dl base fp rest s
      · rfl

end

/-- C5: deleted files are never downloaded and leave no trace in the
local tree (processing one is a no-op on the whole state), subfolders
flagged deleted or recycle-bin are never recursed into and get no local
directory (the loop skips them with no state change), and therefore a
whole walk cannot distinguish the remote tree from the tree with every
flagged entry removed (`prune`). -/
theorem C5_flagged_entries_ignored :
    (∀ (dl : String → String → Bool) (base fp : String) (st : WalkState)
        (f : FileEntry), f.is_deleted = true →
      processFile dl base fp st f = st) ∧
    (∀ (dl : String → String → Bool) (base fp : String) (c : FolderNode)
        (rest : List FolderNode) (st : WalkState),
      (c.is_deleted || c.is_recycle_bin) = true →
      walkSubs dl base fp (c :: rest) st = walkSubs dl base fp rest st) ∧
    (∀ (dl : String → String → Bool) (base fp : String) (n : FolderNode)
        (st : WalkState),
      walkFolder dl base fp (prune n) st = walkFolder dl base fp n st) :=
  ⟨processFile_deleted,
    fun dl base fp c rest st h => by rw [walkSubs, if_pos h],
    walkFolder_prune⟩

/-- Closed instance of `C5_flagged_entries_ignored`: a deleted file is a
no-op, a recycle-bin subfolder is skipped, and a small tree walks
identically to its pruned form. -/
theorem C5_flagged_entries_ignored_witness :
    processFile (fun _ _ => true) "base" "" initState
        ⟨"gone.txt", true, [⟨some 3, some "u"⟩]⟩ = initState ∧
    walkSubs (fun _ _ => true) "base" ""
        [FolderNode.mk false true "Recycle Bin" 9 [] false [] []] initState
      = walkSubs (fun _ _ => true) "base" "" [] initState ∧
    walkFolder (fun _ _ => true) "base" ""
        (prune (FolderNode.mk false false "" 0 [] false
          [⟨"gone.txt", true, [⟨some 3, some "u"⟩]⟩]
          [FolderNode.mk true false "old" 4 [] false [] []])) initState
      = walkFolder (fun _ _ => true) "base" ""
          (FolderNode.mk false false "" 0 [] false
            [⟨"gone.txt", true, [⟨some 3, some "u"⟩]⟩]
            [FolderNode.mk true false "old" 4 [] false [] []]) initState :=
  ⟨C5_flagged_entries_ignored.1 (fun _ _ => true) "base" "" initState
      ⟨"gone.txt", true, [⟨some 3, some "u"⟩]⟩ rfl,
    C5_flagged_entries_ignored.2.1 (fun _ _ => true) "base" ""
      (FolderNode.mk false true "Recycle Bin" 9 [] false [] []) [] initState rfl,
    C5_flagged_entries_ignored.2.2 (fun _ _ => true) "base" ""
      (FolderNode.mk false false "" 0 [] false
        [⟨"gone.txt", true, [⟨some 3, some "u"⟩]⟩]
        [FolderNode.mk true false "old" 4 [] false [] []]) initState⟩

/-- String append acts as append on the character data. -/
theorem str_data_append (a b : String) : (a ++ b).data = a.data ++ b.data := rfl

/-- Strings are equal iff their character data are. -/
theorem str_eq_iff (a b : String) : a = b ↔ a.data = b.data := by
  constructor
  · intro h; rw [h]
  · intro h; exact congrArg String.mk h

/-- Nonemptiness of a string as nonemptiness of its data. -/
theorem str_ne_empty_iff (s : String) : s ≠ "" ↔ s.data ≠ [] := by
  constructor
  · intro h hc; exact h ((str_eq_iff s "").mpr hc)
  · intro h hc; exact h ((str_eq_iff s "").mp hc)

/-- Appending on the right of a nonempty string keeps it nonempty. -/
theorem str_append_ne_empty (a b : String) (ha : a ≠ "") : a ++ b ≠ "" := by
  rw [str_ne_empty_iff] at ha ⊢
  rw [str_data_append]
  simp [ha]

/-- `endsSep` only looks at the right part of an append. -/
theorem endsSep_append (a b : String) (hb : b ≠ "") : endsSep (a ++ b) = endsSep b := by
  rw [str_ne_empty_iff] at hb
  rw [endsSep, endsSep, str_data_append, List.getLast?_append_of_ne_nil _ hb]

/-- `startsSep` only looks at the left part of an append. -/
theorem startsSep_append (a b : String) (ha : a ≠ "") : startsSep (a ++ b) = startsSep a := by
  rw [str_ne_empty_iff] at ha
  rw [startsSep, startsSep, str_data_append]
  cases hd : a.data with
  | nil => exact absurd hd ha
  | cons c l => simp

/-- A remote name that joins into paths losslessly: nonempty, no leading
separator, no trailing separator.  The spec's design notes flag that the
source does not enforce this; the path invariant is stated under it. -/
def goodNameB (s : String) : Bool := !(s = "") && !(startsSep s) && !(endsSep s)

/-- Joining a list of path pieces with the separator; `joined [] = ""`,
matching the walker's initial empty relative path. -/
def joined : List String → String
  | [] => ""
  | [x] => x
  | x :: y :: rest => x ++ "/" ++ joined (y :: rest)

/-- `joined` over a `::` with a nonempty tail inserts one separator. -/
theorem joined_cons (x : String) (l : List String) (h : l ≠ []) :
    joined (x :: l) = x ++ "/" ++ joined l := by
  cases l with
  | nil => exact absurd rfl h
  | cons y r => rfl

/-- `joined` over a nonempty list extended by one piece. -/
theorem joined_append_one (xs : List String) (y : String) (h : xs ≠ []) :
    joined (xs ++ [y]) = joined xs ++ "/" ++ y := by
  induction xs with
  | nil => exact absurd rfl h
  | cons x r ih =>
    cases r with
    | nil => rfl
    | cons z r2 =>
      rw [List.cons_append, joined_cons x ((z :: r2) ++ [y]) (by simp),
        ih (by simp), joined_cons x (z :: r2) (by simp)]
      apply (str_eq_iff _ _).mpr
      simp [str_data_append]

/-- A join of good pieces is nonempty and has no separator at either
end. -/
theorem joined_good (xs : List String) (h : xs ≠ [])
    (hg : ∀ x ∈ xs, goodNameB x = true) :
    joined xs ≠ "" ∧ startsSep (joined xs) = false ∧ endsSep (joined xs) = false := by
  induction xs with
  | nil => exact absurd rfl h
  | cons x r ih =>
    have hx : goodNameB x = true := hg x (by simp)
    rw [goodNameB] at hx
    simp only [Bool.and_eq_true, Bool.not_eq_true', decide_eq_false_iff_not] at hx
    obtain ⟨⟨hx1, hx2⟩, hx3⟩ := hx
    have hx1' : x ≠ "" := by
      intro hc; rw [hc] at hx1; simp at hx1
    cases r with
    | nil => exact ⟨hx1', hx2, hx3⟩
    | cons y r2 =>
      obtain ⟨ih1, ih2, ih3⟩ := ih (by simp) (fun z hz => hg z (by simp [hz]))
      rw [joined_cons x (y :: r2) (by simp)]
      refine ⟨str_append_ne_empty _ _ (str_append_ne_empty _ _ hx1'), ?_, ?_⟩
      · rw [startsSep_append _ _ (str_append_ne_empty _ _ hx1'),
          startsSep_append _ _ hx1', hx2]
      · rw [endsSep_append _ _ ih1, ih3]

/-- `osJoin` under the good-name conditions is plain concatenation with
one separator. -/
theorem osJoin_plain (a b : String) (ha : a ≠ "") (ha2 : endsSep a = false)
    (hb : startsSep b = false) : osJoin a b = a ++ "/" ++ b := by
  rw [osJoin, if_neg (by simp [hb]), if_neg (by simp [ha, ha2])]

/-- The walker's `new_folder_path` expression equals the join of the
ancestor names extended by the subfolder name. -/
theorem nfp_eq (anc : List String) (nm : String)
    (hanc : ∀ x ∈ anc, goodNameB x = true) (hnm : goodNameB nm = true) :
    (if joined anc ≠ "" then osJoin (joined anc) nm else nm) = joined (anc ++ [nm]) := by
  cases anc with
  | nil => simp [joined]
  | cons x r =>
    obtain ⟨h1, _, h3⟩ := joined_good (x :: r) (by simp) hanc
    have hnm2 : startsSep nm = false := by
      rw [goodNameB] at hnm
      simp only [Bool.and_eq_true, Bool.not_eq_true'] at hnm
      exact hnm.1.2
    rw [if_pos h1, osJoin_plain _ _ h1 h3 hnm2,
      joined_append_one (x :: r) nm (by simp)]

/-- `os.path.join(base_path, rel)` for a good base and a good nonempty
relative join is the full joined path. -/
theorem dirPath_eq (base : String) (hb1 : base ≠ "") (hb2 : endsSep base = false)
    (l : List String) (hl : l ≠ []) (hg : ∀ x ∈ l, goodNameB x = true) :
    osJoin base (joined l) = joined (base :: l) := by
  obtain ⟨h1, h2, _⟩ := joined_good l hl hg
  rw [osJoin_plain base (joined l) hb1 hb2 h2, joined_cons base l hl]

/-- `os.path.join(base_path, folder_path, file_name)` (two nested joins)
for a good base, good ancestors and a file name without a leading
separator equals the fully joined path. -/
theorem filePath_eq (base : String) (hb1 : base ≠ "") (hb2 : endsSep base = false)
    (anc : List String) (hanc : ∀ x ∈ anc, goodNameB x = true)
    (nm : String) (hnm : startsSep nm = false) :
    osJoin (osJoin base (joined anc)) nm = joined (base :: (anc ++ [nm])) := by
  cases anc with
  | nil =>
    have h0 : osJoin base (joined []) = base ++ "/" := by
      rw [joined, osJoin, if_neg (by rw [startsSep]; simp),
        if_neg (by simp [hb1, hb2])]
      apply (str_eq_iff _ _).mpr
      simp [str_data_append]
    rw [h0, osJoin, if_neg (by simp [hnm]),
      if_pos (by rw [endsSep_append base "/" (by decide)]; simp [endsSep])]
    rfl
  | cons x r =>
    rw [dirPath_eq base hb1 hb2 (x :: r) (by simp) hanc]
    obtain ⟨ha1, _, ha3⟩ := joined_good (x :: r) (by simp) hanc
    have hj1 : joined (base :: x :: r) ≠ "" := by
      rw [joined_cons base (x :: r) (by simp)]
      exact str_append_ne_empty _ _ (str_append_ne_empty _ _ hb1)
    have hj3 : endsSep (joined (base :: x :: r)) = false := by
      rw [joined_cons base (x :: r) (by simp), endsSep_append _ _ ha1, ha3]
    rw [osJoin_plain _ _ hj1 hj3 hnm,
      ← joined_append_one (base :: x :: r) nm (by simp)]
    rfl

mutual

/-- Every file and subfolder name in the tree is a good path piece. -/
def goodTree : FolderNode → Bool
  | .mk _ _ _ _ _ _ fileList subList =>
    fileList.all (fun f => goodNameB f.name) && goodSubs subList

/-- `goodTree` over a subfolder list, including the subfolder names. -/
def goodSubs : List FolderNode → Bool
  | [] => true
  | c :: rest => goodNameB c.name && goodTree c && goodSubs rest

end

/-- The chain of subfolder names, in remote order, leading from a folder
down to a descendant folder. -/
inductive SubChain : FolderNode → List String → FolderNode → Prop where
  | refl (n : FolderNode) : SubChain n [] n
  | step {n c m : FolderNode} {ns : List String}
      (hc : c ∈ n.subs) (h : SubChain c ns m) : SubChain n (c.name :: ns) m

/-- Handling one file never touches the directory list, the folder
counter or the wait list. -/
theorem processFile_frame (dl : String → String → Bool) (base fp : String)
    (st : WalkState) (f : FileEntry) :
    (processFile dl base fp st f).dirs = st.dirs ∧
    (processFile dl base fp st f).folders_created = st.folders_created ∧
    (processFile dl base fp st f).waits = st.waits := by
  by_cases hdel : f.is_deleted
  · simp [processFile, hdel]
  · rcases hlv : latestVersion f.file_versions with _ | lv
    · simp [processFile, hdel, hlv]
    · rcases hurl : lv.url with _ | u
      · simp [processFile, hdel, hlv, hurl]
      · by_cases hne : u = ""
        · simp [processFile, hdel, hlv, hurl, hne]
        · by_cases hdl : dl u (osJoin (osJoin base fp) f.name) <;>
            simp [processFile, hdel, hlv, hurl, hne, hdl]

/-- The file loop never touches the directory list. -/
theorem processFiles_dirs (dl : String → String → Bool) (base fp : String)
    (fs : List FileEntry) (st : WalkState) :
    (processFiles dl base fp fs st).dirs = st.dirs := by
  induction fs generalizing st with
  | nil => rfl
  | cons f rest ih =>
    rw [processFiles, ih, (processFile_frame dl base fp st f).1]

/-- Every download recorded by handling one file is an old one or the
join of the base path, the current relative path and the file's name. -/
theorem processFile_downloads (dl : String → String → Bool) (base fp : String)
    (st : WalkState) (f : FileEntry) :
    ∀ p ∈ (processFile dl base fp st f).downloads,
      p ∈ st.downloads ∨ (f.is_deleted = false ∧ p = osJoin (osJoin base fp) f.name) := by
  intro p hp
  by_cases hdel : f.is_deleted
  · left; simpa [processFile, hdel] using hp
  · rcases hlv : latestVersion f.file_versions with _ | lv
    · left; simpa [processFile, hdel, hlv] using hp
    · rcases hurl : lv.url with _ | u
      · left; simpa [processFile, hdel, hlv, hurl] using hp
      · by_cases hne : u = ""
        · left; simpa [processFile, hdel, hlv, hurl, hne] using hp
        · by_cases hdl : dl u (osJoin (osJoin base fp) f.name)
          · simp only [processFile, hdel, hlv, hurl, hne, hdl] at hp
            simp only [Bool.false_eq_true, if_false, if_true,
              List.mem_append, List.mem_singleton] at hp
            rcases hp with hp | hp
            · exact Or.inl hp
            · exact Or.inr ⟨by simpa using hdel, hp⟩
          · left; simpa [processFile, hdel, hlv, hurl, hne, hdl] using hp

/-- Every download recorded by the file loop is an old one or the join
of base, current relative path and the name of one of the entries. -/
theorem processFiles_downloads (dl : String → String → Bool) (base fp : String)
    (fs : List FileEntry) (st : WalkState) :
    ∀ p ∈ (processFiles dl base fp fs st).downloads,
      p ∈ st.downloads ∨ ∃ f ∈ fs, p = osJoin (osJoin base fp) f.name := by
  induction fs generalizing st with
  | nil => intro p hp; exact Or.inl hp
  | cons f rest ih =>
    intro p hp
    rw [processFiles] at hp
    rcases ih (processFile dl base fp st f) p hp with hin | ⟨g, hg, hgp⟩
    · rcases processFile_downloads dl base fp st f p hin with hin2 | ⟨_, hpath⟩
      · exact Or.inl hin2
      · exact Or.inr ⟨f, by simp, hpath⟩
    · exact Or.inr ⟨g, by simp [hg], hgp⟩

/-- A good name has no leading separator. -/
theorem goodNameB_startsSep (s : String) (h : goodNameB s = true) :
    startsSep s = false := by
  rw [goodNameB] at h
  simp only [Bool.and_eq_true, Bool.not_eq_true'] at h
  exact h.1.2

mutual

/-- Soundness of the path construction: starting a folder walk at
relative path `joined anc`, every download the walk adds is located at
the join of the base directory, the ancestors `anc`, the chain of
subfolder names from this folder down to the file's folder, and the
file's name; every directory the walk adds is the analogous join ending
in the created subfolder's name. -/
theorem walkFolder_paths (dl : String → String → Bool) (base : String)
    (n : FolderNode) (anc : List String) (st : WalkState)
    (hb1 : base ≠ "") (hb2 : endsSep base = false)
    (hg : goodTree n = true) (hanc : ∀ x ∈ anc, goodNameB x = true) :
    (∀ p ∈ (walkFolder dl base (joined anc) n st).state.downloads,
        p ∈ st.downloads ∨ ∃ ns m f, SubChain n ns m ∧ f ∈ m.files ∧
          p = joined (base :: (anc ++ ns) ++ [f.name])) ∧
    (∀ dd ∈ (walkFolder dl base (joined anc) n st).state.dirs,
        dd ∈ st.dirs ∨ ∃ ns m c, SubChain n ns m ∧ c ∈ m.subs ∧
          dd = joined (base :: (anc ++ ns) ++ [c.name])) := by
  match n with
  | .mk d r nm i pre isErr fileList subList =>
    rw [goodTree] at hg
    simp only [Bool.and_eq_true] at hg
    obtain ⟨hfg, hgs⟩ := hg
    rcases hfl : fetchLoop pre [] with w | w
    · by_cases hErr : isErr
      · have hres : walkFolder dl base (joined anc)
            (FolderNode.mk d r nm i pre isErr fileList subList) st
            = WalkResult.ok { st with waits := st.waits ++ w } := by
          simp [walkFolder, hfl, hErr]
        rw [hres]
        exact ⟨fun p hp => Or.inl hp, fun dd hdd => Or.inl hdd⟩
      · have hres : walkFolder dl base (joined anc)
            (FolderNode.mk d r nm i pre isErr fileList subList) st
            = walkSubs dl base (joined anc) subList
                (processFiles dl base (joined anc) fileList
                  { st with waits := st.waits ++ w }) := by
          simp [walkFolder, hfl, hErr]
        rw [hres]
        have IH := walkSubs_paths dl base subList anc
          (processFiles dl base (joined anc) fileList { st with waits := st.waits ++ w })
          hb1 hb2 hgs hanc
        constructor
        · intro p hp
          rcases IH.1 p hp with hin | ⟨c, hc, ns, m, f, hch, hf, hpath⟩
          · rcases processFiles_downloads dl base (joined anc) fileList
                { st with waits := st.waits ++ w } p hin with h0 | ⟨f, hf, hpath⟩
            · exact Or.inl h0
            · refine Or.inr ⟨[], FolderNode.mk d r nm i pre isErr fileList subList, f,
                SubChain.refl _, by simpa [FolderNode.files] using hf, ?_⟩
              rw [hpath, filePath_eq base hb1 hb2 anc hanc f.name
                (goodNameB_startsSep f.name (List.all_eq_true.mp hfg f hf))]
              simp
          · refine Or.inr ⟨c.name :: ns, m, f,
              SubChain.step (by simpa [FolderNode.subs] using hc) hch, hf, ?_⟩
            exact hpath
        · intro dd hdd
          rcases IH.2 dd hdd with hin | ⟨c, hc, hforms⟩
          · rw [processFiles_dirs] at hin
            exact Or.inl hin
          · rcases hforms with hd1 | ⟨ns, m, cd, hch, hcd, hpath⟩
            · refine Or.inr ⟨[], FolderNode.mk d r nm i pre isErr fileList subList, c,
                SubChain.refl _, by simpa [FolderNode.subs] using hc, ?_⟩
              simpa using hd1
            · exact Or.inr ⟨c.name :: ns, m, cd,
                SubChain.step (by simpa [FolderNode.subs] using hc) hch, hcd, hpath⟩
    · have hres : walkFolder dl base (joined anc)
          (FolderNode.mk d r nm i pre isErr fileList subList) st
          = WalkResult.crashed { st with waits := st.waits ++ w } := by
        simp [walkFolder, hfl]
      rw [hres]
      exact ⟨fun p hp => Or.inl hp, fun dd hdd => Or.inl hdd⟩

/-- `walkFolder_paths` for the subfolder loop: paths added while
processing a list of sibling subfolders pass through exactly one of
them. -/
theorem walkSubs_paths (dl : String → String → Bool) (base : String)
    (l : List FolderNode) (anc : List String) (st : WalkState)
    (hb1 : base ≠ "") (hb2 : endsSep base = false)
    (hgs : goodSubs l = true) (hanc : ∀ x ∈ anc, goodNameB x = true) :
    (∀ p ∈ (walkSubs dl base (joined anc) l st).state.downloads,
        p ∈ st.downloads ∨ ∃ c ∈ l, ∃ ns m f, SubChain c ns m ∧ f ∈ m.files ∧
          p = joined (base :: (anc ++ c.name :: ns) ++ [f.name])) ∧
    (∀ dd ∈ (walkSubs dl base (joined anc) l st).state.dirs,
        dd ∈ st.dirs ∨ ∃ c ∈ l, (dd = joined (base :: (anc ++ [c.name])) ∨
          ∃ ns m cd, SubChain c ns m ∧ cd ∈ m.subs ∧
            dd = joined (base :: (anc ++ c.name :: ns) ++ [cd.name]))) := by
  match l with
  | [] =>
    exact ⟨fun p hp => Or.inl hp, fun dd hdd => Or.inl hdd⟩
  | c :: rest =>
    rw [goodSubs] at hgs
    simp only [Bool.and_eq_true] at hgs
    obtain ⟨⟨hcn, hgt⟩, hgr⟩ := hgs
    by_cases hflag : (c.is_deleted || c.is_recycle_bin) = true
    · have hres : walkSubs dl base (joined anc) (c :: rest) st
          = walkSubs dl base (joined anc) rest st := by
        rw [walkSubs, if_pos hflag]
      rw [hres]
      have IH := walkSubs_paths dl base rest anc st hb1 hb2 hgr hanc
      constructor
      · intro p hp
        rcases IH.1 p hp with hin | ⟨c', hc', hrest⟩
        · exact Or.inl hin
        · exact Or.inr ⟨c', by simp [hc'], hrest⟩
      · intro dd hdd
        rcases IH.2 dd hdd with hin | ⟨c', hc', hrest⟩
        · exact Or.inl hin
        · exact Or.inr ⟨c', by simp [hc'], hrest⟩
    · have hanc' : ∀ x ∈ anc ++ [c.name], goodNameB x = true := by
        intro x hx
        rcases List.mem_append.mp hx with hx | hx
        · exact hanc x hx
        · rw [List.mem_singleton.mp hx]; exact hcn
      have hnfp : (if joined anc ≠ "" then osJoin (joined anc) c.name else c.name)
          = joined (anc ++ [c.name]) := nfp_eq anc c.name hanc hcn
      have hdirpath : osJoin base (joined (anc ++ [c.name]))
          = joined (base :: (anc ++ [c.name])) :=
        dirPath_eq base hb1 hb2 (anc ++ [c.name]) (by simp) hanc'
      have hres : walkSubs dl base (joined anc) (c :: rest) st
          = match walkFolder dl base (joined (anc ++ [c.name])) c
              { st with dirs := st.dirs ++ [joined (base :: (anc ++ [c.name]))],
                        folders_created := st.folders_created + 1 } with
            | .crashed s => WalkResult.crashed s
            | .ok s => walkSubs dl base (joined anc) rest s := by
        rw [walkSubs, if_neg hflag, hnfp, hdirpath]
      rw [hres]
      have IHc := walkFolder_paths dl base c (anc ++ [c.name])
        { st with dirs := st.dirs ++ [joined (base :: (anc ++ [c.name]))],
                  folders_created := st.folders_created + 1 }
        hb1 hb2 hgt hanc'
      rcases hw : walkFolder dl base (joined (anc ++ [c.name])) c
          { st with dirs := st.dirs ++ [joined (base :: (anc ++ [c.name]))],
                    folders_created := st.folders_created + 1 } with s | s
      · rw [hw] at IHc
        simp only [WalkResult.state] at IHc
        have IHr := walkSubs_paths dl base rest anc s hb1 hb2 hgr hanc
        constructor
        · intro p hp
          rcases IHr.1 p hp with hin | ⟨c', hc', hrest⟩
          · rcases IHc.1 p hin with hin1 | ⟨ns, m, f, hch, hf, hpath⟩
            · exact Or.inl hin1
            · refine Or.inr ⟨c, by simp, ns, m, f, hch, hf, ?_⟩
              rw [hpath]
              simp [List.append_assoc]
          · exact Or.inr ⟨c', by simp [hc'], hrest⟩
        · intro dd hdd
          rcases IHr.2 dd hdd with hin | ⟨c', hc', hrest⟩
          · rcases IHc.2 dd hin with hin1 | ⟨ns, m, cd, hch, hcd, hpath⟩
            · simp only [List.mem_append, List.mem_singleton] at hin1
              rcases hin1 with hin1 | hin1
              · exact Or.inl hin1
              · exact Or.inr ⟨c, by simp, Or.inl hin1⟩
            · refine Or.inr ⟨c, by simp, Or.inr ⟨ns, m, cd, hch, hcd, ?_⟩⟩
              rw [hpath]
              simp [List.append_assoc]
          · exact Or.inr ⟨c', by simp [hc'], hrest⟩
      · rw [hw] at IHc
        simp only [WalkResult.state] at IHc
        constructor
        · intro p hp
          rcases IHc.1 p hp with hin1 | ⟨ns, m, f, hch, hf, hpath⟩
          · exact Or.inl hin1
          · refine Or.inr ⟨c, by simp, ns, m, f, hch, hf, ?_⟩
            rw [hpath]
            simp [List.append_assoc]
        · intro dd hdd
          rcases IHc.2 dd hdd with hin1 | ⟨ns, m, cd, hch, hcd, hpath⟩
          · simp only [List.mem_append, List.mem_singleton] at hin1
            rcases hin1 with hin1 | hin1
            · exact Or.inl hin1
            · exact Or.inr ⟨c, by simp, Or.inl hin1⟩
          · refine Or.inr ⟨c, by simp, Or.inr ⟨ns, m, cd, hch, hcd, ?_⟩⟩
            rw [hpath]
            simp [List.append_assoc]

end

/-- C3: in a full project walk (which starts at the root with an empty
relative path and a fresh state), every downloaded file sits at exactly
`base/<ancestor folder names in remote order>/<file name>`, and every
created directory sits at exactly `base/<ancestor folder names>` — both
being the plain separator-join of the base directory with the chain of
remote names (`SubChain`).  Stated under the goodness condition the
spec's design notes flag as unenforced: the base path is nonempty with
no trailing separator, and remote names are nonempty with no leading or
trailing separator. -/
theorem C3_local_path_is_joined_remote_chain (dl : String → String → Bool)
    (base : String) (n : FolderNode)
    (hb1 : base ≠ "") (hb2 : endsSep base = false) (hg : goodTree n = true) :
    (∀ p ∈ (walkFolder dl base "" n initState).state.downloads,
        ∃ ns m f, SubChain n ns m ∧ f ∈ m.files ∧
          p = joined (base :: (ns ++ [f.name]))) ∧
    (∀ dd ∈ (walkFolder dl base "" n initState).state.dirs,
        ∃ ns m c, SubChain n ns m ∧ c ∈ m.subs ∧
          dd = joined (base :: (ns ++ [c.name]))) := by
  have h := walkFolder_paths dl base n [] initState hb1 hb2 hg (by simp)
  constructor
  · intro p hp
    rcases h.1 p hp with hin | ⟨ns, m, f, hch, hf, hpath⟩
    · simp [initState] at hin
    · exact ⟨ns, m, f, hch, hf, by simpa using hpath⟩
  · intro dd hdd
    rcases h.2 dd hdd with hin | ⟨ns, m, c, hch, hc, hpath⟩
    · simp [initState] at hin
    · exact ⟨ns, m, c, hch, hc, by simpa using hpath⟩

/-- Closed instance of `C3_local_path_is_joined_remote_chain` on the
spec's own scenario: root has file `A` and subfolder `B`; `B` has file
`C`. -/
theorem C3_local_path_is_joined_remote_chain_witness :
    (∀ p ∈ (walkFolder (fun _ _ => true) "base" ""
        (FolderNode.mk false false "" 0 [] false
          [⟨"A", false, [⟨some 1, some "uA"⟩]⟩]
          [FolderNode.mk false false "B" 7 [] false
            [⟨"C", false, [⟨some 1, some "uC1"⟩, ⟨some 2, some "uC2"⟩]⟩] []])
        initState).state.downloads,
      ∃ ns m f, SubChain (FolderNode.mk false false "" 0 [] false
          [⟨"A", false, [⟨some 1, some "uA"⟩]⟩]
          [FolderNode.mk false false "B" 7 [] false
            [⟨"C", false, [⟨some 1, some "uC1"⟩, ⟨some 2, some "uC2"⟩]⟩] []]) ns m ∧
        f ∈ m.files ∧ p = joined ("base" :: (ns ++ [f.name]))) ∧
    (∀ dd ∈ (walkFolder (fun _ _ => true) "base" ""
        (FolderNode.mk false false "" 0 [] false
          [⟨"A", false, [⟨some 1, some "uA"⟩]⟩]
          [FolderNode.mk false false "B" 7 [] false
            [⟨"C", false, [⟨some 1, some "uC1"⟩, ⟨some 2, some "uC2"⟩]⟩] []])
        initState).state.dirs,
      ∃ ns m c, SubChain (FolderNode.mk false false "" 0 [] false
          [⟨"A", false, [⟨some 1, some "uA"⟩]⟩]
          [FolderNode.mk false false "B" 7 [] false
            [⟨"C", false, [⟨some 1, some "uC1"⟩, ⟨some 2, some "uC2"⟩]⟩] []]) ns m ∧
        c ∈ m.subs ∧ dd = joined ("base" :: (ns ++ [c.name]))) :=
  C3_local_path_is_joined_remote_chain (fun _ _ => true) "base"
    (FolderNode.mk false false "" 0 [] false
      [⟨"A", false, [⟨some 1, some "uA"⟩]⟩]
      [FolderNode.mk false false "B" 7 [] false
        [⟨"C", false, [⟨some 1, some "uC1"⟩, ⟨some 2, some "uC2"⟩]⟩] []])
    (by decide) (by decide) (by decide)
